import Mathlib

/-
Verification development for the Electrostat repository.

The definitions below are a shallow embedding of the numerical core of the
program (src/field.py and the field-related methods of src/scene2d.py) into
Lean, with Python floats modelled as real numbers, Python loops as folds or
fuel-indexed recursion, and Python tuples as products or structures.  The
marching-squares extractor is embedded polymorphically over a linear ordered
field so that it can be evaluated exactly on rational inputs and instantiated
at the reals inside the potential-contour pipeline.
-/

namespace Electrostat

/-- Planar vector, the embedding of the Vector = Tuple[float, float] alias. -/
abbrev Vec := ℝ × ℝ

/-- Point charge from objects.py: position and magnitude. -/
structure PointCharge where
  x : ℝ
  y : ℝ
  q : ℝ

/-- Line charge from objects.py: two endpoints and a linear density. -/
structure LineCharge where
  x1 : ℝ
  y1 : ℝ
  x2 : ℝ
  y2 : ℝ
  linear_density : ℝ

/-- Current wire from objects.py: two endpoints and a signed current. -/
structure CurrentWire where
  x1 : ℝ
  y1 : ℝ
  x2 : ℝ
  y2 : ℝ
  current : ℝ

/-- Coulomb-like constant K_E = 1.0 from field.py. -/
def K_E : ℝ := 1.0

/-- Simplified Biot-Savart constant MU_OVER_4PI = 1.0 from field.py. -/
def MU_OVER_4PI : ℝ := 1.0

/-- Epsilon threshold 1e-6 from field.py, polymorphic so the rational
instantiation of marching squares can use the same constant. -/
def EPSILON {α : Type} [LinearOrderedField α] : α := 1e-6

/-- Fixed number of sub-segments for discretised line sources, from field.py. -/
def SEGMENTS_PER_LINE : ℕ := 20

/-- Embedding of math.hypot: the Euclidean norm of the pair (x, y). -/
noncomputable def hypot (x y : ℝ) : ℝ := Real.sqrt (x ^ 2 + y ^ 2)

/-- Embedding of field.py _normalize. -/
noncomputable def normalize (vec : Vec) : Vec :=
  let mag := hypot vec.1 vec.2
  if mag < EPSILON then (0, 0) else (vec.1 / mag, vec.2 / mag)

/-- Contribution of one point charge inside the first loop of
compute_E_at_point; the continue branch contributes the zero vector. -/
noncomputable def eChargeTerm (point : Vec) (charge : PointCharge) : Vec :=
  let dx := point.1 - charge.x
  let dy := point.2 - charge.y
  let r_sq := dx * dx + dy * dy
  if r_sq < EPSILON then (0, 0)
  else
    let r_mag := Real.sqrt r_sq
    let intensity := K_E * charge.q / r_sq
    (intensity * dx / r_mag, intensity * dy / r_mag)

/-- Contribution of sub-segment i of a line charge inside the second loop of
compute_E_at_point. -/
noncomputable def eLineSubTerm (point : Vec) (line : LineCharge) (i : ℕ) : Vec :=
  let segments : ℕ := max 4 SEGMENTS_PER_LINE
  let length := hypot (line.x2 - line.x1) (line.y2 - line.y1)
  let dx_line := (line.x2 - line.x1) / (segments : ℝ)
  let dy_line := (line.y2 - line.y1) / (segments : ℝ)
  let dq := line.linear_density * length / (segments : ℝ)
  let sx := line.x1 + ((i : ℝ) + 0.5) * dx_line
  let sy := line.y1 + ((i : ℝ) + 0.5) * dy_line
  let dx := point.1 - sx
  let dy := point.2 - sy
  let r_sq := dx * dx + dy * dy
  if r_sq < EPSILON then (0, 0)
  else
    let r_mag := Real.sqrt r_sq
    let intensity := K_E * dq / r_sq
    (intensity * dx / r_mag, intensity * dy / r_mag)

/-- Total contribution of one line charge in compute_E_at_point: degenerate
segments (length below epsilon) contribute nothing. -/
noncomputable def eLineTerm (point : Vec) (line : LineCharge) : Vec :=
  let segments : ℕ := max 4 SEGMENTS_PER_LINE
  let length := hypot (line.x2 - line.x1) (line.y2 - line.y1)
  if length < EPSILON then (0, 0)
  else ((List.range segments).map (eLineSubTerm point line)).sum

/-- Embedding of field.py compute_E_at_point: the two accumulation loops
become sums of the per-source terms. -/
noncomputable def compute_E_at_point (point : Vec) (charges : List PointCharge)
    (line_charges : List LineCharge) : Vec :=
  (charges.map (eChargeTerm point)).sum + (line_charges.map (eLineTerm point)).sum

/-- Midpoint of sub-segment i of a wire in compute_B_at_point. -/
noncomputable def bSubMid (wire : CurrentWire) (i : ℕ) : Vec :=
  let segments : ℕ := max 4 SEGMENTS_PER_LINE
  let dx_line := (wire.x2 - wire.x1) / (segments : ℝ)
  let dy_line := (wire.y2 - wire.y1) / (segments : ℝ)
  (wire.x1 + ((i : ℝ) + 0.5) * dx_line, wire.y1 + ((i : ℝ) + 0.5) * dy_line)

/-- Squared distance from the sample point to the midpoint of sub-segment i,
as computed in the inner loop of compute_B_at_point. -/
noncomputable def bSubRsq (point : Vec) (wire : CurrentWire) (i : ℕ) : ℝ :=
  let dx := point.1 - (bSubMid wire i).1
  let dy := point.2 - (bSubMid wire i).2
  dx * dx + dy * dy

/-- Contribution of sub-segment i of a wire inside the inner loop of
compute_B_at_point. -/
noncomputable def bSubTerm (point : Vec) (wire : CurrentWire) (i : ℕ) : Vec :=
  let segments : ℕ := max 4 SEGMENTS_PER_LINE
  let dx_line := (wire.x2 - wire.x1) / (segments : ℝ)
  let dy_line := (wire.y2 - wire.y1) / (segments : ℝ)
  let dl_mag := hypot dx_line dy_line
  let dx := point.1 - (bSubMid wire i).1
  let dy := point.2 - (bSubMid wire i).2
  if bSubRsq point wire i < EPSILON then (0, 0)
  else
    let tangent := normalize (-dy, dx)
    let strength := MU_OVER_4PI * wire.current * dl_mag / bSubRsq point wire i
    (strength * tangent.1, strength * tangent.2)

/-- Total contribution of one wire in compute_B_at_point, with the two
degeneracy guards of the source. -/
noncomputable def bWireTerm (point : Vec) (wire : CurrentWire) : Vec :=
  let segments : ℕ := max 4 SEGMENTS_PER_LINE
  let length := hypot (wire.x2 - wire.x1) (wire.y2 - wire.y1)
  if length < EPSILON then (0, 0)
  else
    let dx_line := (wire.x2 - wire.x1) / (segments : ℝ)
    let dy_line := (wire.y2 - wire.y1) / (segments : ℝ)
    let dl_mag := hypot dx_line dy_line
    if dl_mag < EPSILON then (0, 0)
    else ((List.range segments).map (bSubTerm point wire)).sum

/-- Embedding of field.py compute_B_at_point. -/
noncomputable def compute_B_at_point (point : Vec) (currents : List CurrentWire) : Vec :=
  (currents.map (bWireTerm point)).sum

/-- Contribution of one point charge in compute_potential_at_point. -/
noncomputable def potChargeTerm (point : Vec) (charge : PointCharge) : ℝ :=
  let dx := point.1 - charge.x
  let dy := point.2 - charge.y
  let r := hypot dx dy
  if r < EPSILON then 0 else K_E * charge.q / r

/-- Contribution of sub-segment i of a line charge in
compute_potential_at_point. -/
noncomputable def potLineSubTerm (point : Vec) (line : LineCharge) (i : ℕ) : ℝ :=
  let segments : ℕ := max 4 SEGMENTS_PER_LINE
  let length := hypot (line.x2 - line.x1) (line.y2 - line.y1)
  let dx_line := (line.x2 - line.x1) / (segments : ℝ)
  let dy_line := (line.y2 - line.y1) / (segments : ℝ)
  let dq := line.linear_density * length / (segments : ℝ)
  let sx := line.x1 + ((i : ℝ) + 0.5) * dx_line
  let sy := line.y1 + ((i : ℝ) + 0.5) * dy_line
  let r := hypot (point.1 - sx) (point.2 - sy)
  if r < EPSILON then 0 else K_E * dq / r

/-- Total contribution of one line charge in compute_potential_at_point. -/
noncomputable def potLineTerm (point : Vec) (line : LineCharge) : ℝ :=
  let segments : ℕ := max 4 SEGMENTS_PER_LINE
  let length := hypot (line.x2 - line.x1) (line.y2 - line.y1)
  if length < EPSILON then 0
  else ((List.range segments).map (potLineSubTerm point line)).sum

/-- Embedding of field.py compute_potential_at_point. -/
noncomputable def compute_potential_at_point (point : Vec) (charges : List PointCharge)
    (line_charges : List LineCharge) : ℝ :=
  (charges.map (potChargeTerm point)).sum + (line_charges.map (potLineTerm point)).sum

/-- Embedding of field.py compute_field_magnitude. -/
noncomputable def compute_field_magnitude (vec : Vec) : ℝ := hypot vec.1 vec.2

/-- The claim of C1, restated with the epsilon guard of the source made
explicit; without that guard the claim fails (see the counterexample). -/
theorem claim1_E_single_charge (r q : ℝ) (hr : 0 < r) (hguard : ¬ r * r < EPSILON) :
    compute_E_at_point (r, 0) [⟨0, 0, q⟩] [] = (K_E * q / (r * r), 0) := by
  have hsq : Real.sqrt (r * r) = r := Real.sqrt_mul_self hr.le
  have hne : r ≠ 0 := ne_of_gt hr
  simp only [compute_E_at_point, List.map_cons, List.map_nil, List.sum_cons,
    List.sum_nil, add_zero, eChargeTerm, sub_zero, sub_self, mul_zero, zero_mul]
  rw [if_neg hguard]
  simp only [hsq, Prod.mk_add_mk, add_zero, Prod.mk.injEq, zero_div]
  refine ⟨?_, trivial⟩
  rw [mul_div_assoc, div_self hne, mul_one]

/-- Witness for claim1_E_single_charge at r = 1, q = 2. -/
theorem claim1_E_single_charge_witness :
    (0 : ℝ) < 1 ∧ ¬ (1 : ℝ) * 1 < EPSILON ∧
      compute_E_at_point (1, 0) [⟨0, 0, 2⟩] [] = (K_E * 2 / (1 * 1), 0) := by
  refine ⟨one_pos, by norm_num [EPSILON], ?_⟩
  exact claim1_E_single_charge 1 2 one_pos (by norm_num [EPSILON])

/-- Counterexample to C1 as stated: at r = 1e-4 the squared distance 1e-8 is
below the epsilon 1e-6, so the contribution is skipped and the field is the
zero vector instead of (K_E q / r ^ 2, 0). -/
theorem claim1_counterexample :
    (0 : ℝ) < 1e-4 ∧
      compute_E_at_point (1e-4, 0) [⟨0, 0, 1⟩] [] ≠ (K_E * 1 / (1e-4 * 1e-4), 0) := by
  constructor
  · norm_num
  · have hguard : ((1e-4 : ℝ) - 0) * (1e-4 - 0) + (0 - 0) * (0 - 0) < EPSILON := by
      norm_num [EPSILON]
    simp only [compute_E_at_point, List.map_cons, List.map_nil, List.sum_cons,
      List.sum_nil, add_zero, eChargeTerm]
    rw [if_pos hguard]
    intro h
    have h1 := congrArg Prod.fst h
    simp only [K_E] at h1
    norm_num at h1

/-- Degenerate line charge contributes nothing to the electric field. -/
theorem eLineTerm_degenerate (point : Vec) (line : LineCharge)
    (hx : line.x1 = line.x2) (hy : line.y1 = line.y2) :
    eLineTerm point line = (0, 0) := by
  have h1 : line.x2 - line.x1 = 0 := by rw [hx]; ring
  have h2 : line.y2 - line.y1 = 0 := by rw [hy]; ring
  have hlen : hypot (line.x2 - line.x1) (line.y2 - line.y1) < EPSILON := by
    rw [h1, h2]
    simp only [hypot]
    norm_num [Real.sqrt_zero, EPSILON]
  simp only [eLineTerm]
  rw [if_pos hlen]

/-- Degenerate line charge contributes nothing to the potential. -/
theorem potLineTerm_degenerate (point : Vec) (line : LineCharge)
    (hx : line.x1 = line.x2) (hy : line.y1 = line.y2) :
    potLineTerm point line = 0 := by
  have h1 : line.x2 - line.x1 = 0 := by rw [hx]; ring
  have h2 : line.y2 - line.y1 = 0 := by rw [hy]; ring
  have hlen : hypot (line.x2 - line.x1) (line.y2 - line.y1) < EPSILON := by
    rw [h1, h2]
    simp only [hypot]
    norm_num [Real.sqrt_zero, EPSILON]
  simp only [potLineTerm]
  rw [if_pos hlen]

/-- Degenerate wire contributes nothing to the magnetic field. -/
theorem bWireTerm_degenerate (point : Vec) (wire : CurrentWire)
    (hx : wire.x1 = wire.x2) (hy : wire.y1 = wire.y2) :
    bWireTerm point wire = (0, 0) := by
  have h1 : wire.x2 - wire.x1 = 0 := by rw [hx]; ring
  have h2 : wire.y2 - wire.y1 = 0 := by rw [hy]; ring
  have hlen : hypot (wire.x2 - wire.x1) (wire.y2 - wire.y1) < EPSILON := by
    rw [h1, h2]
    simp only [hypot]
    norm_num [Real.sqrt_zero, EPSILON]
  simp only [bWireTerm]
  rw [if_pos hlen]

/-- The claim of C5: a zero-length line charge or wire placed anywhere in the
source list leaves all three evaluators unchanged, so it contributes exactly
zero and removing it does not change the result. -/
theorem claim5_degenerate_segment (p : Vec) (lc : LineCharge) (w : CurrentWire)
    (cs : List PointCharge) (ls1 ls2 : List LineCharge) (ws1 ws2 : List CurrentWire)
    (hlx : lc.x1 = lc.x2) (hly : lc.y1 = lc.y2)
    (hwx : w.x1 = w.x2) (hwy : w.y1 = w.y2) :
    compute_E_at_point p cs (ls1 ++ lc :: ls2) = compute_E_at_point p cs (ls1 ++ ls2) ∧
    compute_potential_at_point p cs (ls1 ++ lc :: ls2) =
      compute_potential_at_point p cs (ls1 ++ ls2) ∧
    compute_B_at_point p (ws1 ++ w :: ws2) = compute_B_at_point p (ws1 ++ ws2) := by
  refine ⟨?_, ?_, ?_⟩
  · simp only [compute_E_at_point, List.map_append, List.sum_append, List.map_cons,
      List.sum_cons, eLineTerm_degenerate p lc hlx hly]
    have : ((0, 0) : Vec) = 0 := rfl
    rw [this, zero_add]
  · simp only [compute_potential_at_point, List.map_append, List.sum_append,
      List.map_cons, List.sum_cons, potLineTerm_degenerate p lc hlx hly, zero_add]
  · simp only [compute_B_at_point, List.map_append, List.sum_append, List.map_cons,
      List.sum_cons, bWireTerm_degenerate p w hwx hwy]
    have : ((0, 0) : Vec) = 0 := rfl
    rw [this, zero_add]

/-- Witness for claim5_degenerate_segment with a degenerate line charge and a
degenerate wire at (1, 1), evaluated at the origin. -/
theorem claim5_degenerate_segment_witness :
    compute_E_at_point (0, 0) [] ([] ++ ⟨1, 1, 1, 1, 3⟩ :: []) =
      compute_E_at_point (0, 0) [] ([] ++ []) ∧
    compute_potential_at_point (0, 0) [] ([] ++ ⟨1, 1, 1, 1, 3⟩ :: []) =
      compute_potential_at_point (0, 0) [] ([] ++ []) ∧
    compute_B_at_point (0, 0) ([] ++ ⟨1, 1, 1, 1, 2⟩ :: []) =
      compute_B_at_point (0, 0) ([] ++ []) :=
  claim5_degenerate_segment (0, 0) ⟨1, 1, 1, 1, 3⟩ ⟨1, 1, 1, 1, 2⟩ [] [] [] [] []
    rfl rfl rfl rfl

/-- The claim of C6: superposition of two point charges is the componentwise
sum of their individual fields. -/
theorem claim6_superposition (p : Vec) (c1 c2 : PointCharge) :
    compute_E_at_point p [c1, c2] [] =
      compute_E_at_point p [c1] [] + compute_E_at_point p [c2] [] := by
  simp only [compute_E_at_point, List.map_cons, List.map_nil, List.sum_cons,
    List.sum_nil, add_zero]

/-- Embedding of the nested interpolate helper of field.py marching_squares,
polymorphic over the scalar type. -/
def interpolate {α : Type} [LinearOrderedField α] (p1 p2 : α × α) (v1 v2 level : α) : α × α :=
  if |level - v1| < EPSILON then p1
  else if |level - v2| < EPSILON then p2
  else if |v1 - v2| < EPSILON then p1
  else
    let t := (level - v1) / (v2 - v1)
    (p1.1 + t * (p2.1 - p1.1), p1.2 + t * (p2.2 - p1.2))

/-- The 4-bit corner classification built with the four bit-or updates of
marching_squares. -/
def corner_code {α : Type} [LinearOrderedField α] (level v1 v2 v3 v4 : α) : ℕ :=
  (if v1 > level then 1 else 0) ||| (if v2 > level then 2 else 0) |||
    (if v3 > level then 4 else 0) ||| (if v4 > level then 8 else 0)

/-- Pairing of the collected edge points into two-point segments, the
embedding of the stride-2 loop at the end of a marching_squares cell. -/
def pairUp {β : Type} : List β → List (List β)
  | a :: b :: rest => [a, b] :: pairUp rest
  | _ => []

/-- Body of the per-cell work of marching_squares for cell (j, i) at a given
level.  Out-of-range indices read the default 0; every claim uses grids whose
dimensions match, as the Python source assumes. -/
def marching_cell {α : Type} [LinearOrderedField α] (xs ys : List α)
    (values : List (List α)) (level : α) (j i : ℕ) : List (List (α × α)) :=
  let v1 := (values.getD j []).getD i 0
  let v2 := (values.getD j []).getD (i + 1) 0
  let v3 := (values.getD (j + 1) []).getD (i + 1) 0
  let v4 := (values.getD (j + 1) []).getD i 0
  let idx := corner_code level v1 v2 v3 v4
  if idx = 0 ∨ idx = 15 then []
  else
    let x1 := xs.getD i 0
    let x2 := xs.getD (i + 1) 0
    let y1 := ys.getD j 0
    let y2 := ys.getD (j + 1) 0
    let p1 := (x1, y1)
    let p2 := (x2, y1)
    let p3 := (x2, y2)
    let p4 := (x1, y2)
    let edge_points :=
      (if idx ∈ [1, 5, 13, 9] then [interpolate p1 p2 v1 v2 level] else []) ++
      (if idx ∈ [3, 7, 11, 10] then [interpolate p2 p3 v2 v3 level] else []) ++
      (if idx ∈ [2, 6, 7, 10, 14] then [interpolate p2 p3 v2 v3 level] else []) ++
      (if idx ∈ [4, 6, 12, 14] then [interpolate p3 p4 v3 v4 level] else []) ++
      (if idx ∈ [8, 9, 12, 13] then [interpolate p4 p1 v4 v1 level] else []) ++
      (if idx ∈ [1, 3, 5, 7, 9, 11] then [interpolate p4 p1 v4 v1 level] else [])
    pairUp edge_points

/-- Embedding of field.py marching_squares: the three nested loops become
nested flat maps in the same order. -/
def marching_squares {α : Type} [LinearOrderedField α] (xs ys : List α)
    (values : List (List α)) (levels : List α) : List (List (α × α)) :=
  let nx := xs.length
  let ny := ys.length
  if nx < 2 ∨ ny < 2 then []
  else
    levels.flatMap fun level =>
      (List.range (ny - 1)).flatMap fun j =>
        (List.range (nx - 1)).flatMap fun i =>
          marching_cell xs ys values level j i

/-- Failing input for C2: the scalar grid value(x, y) = x with columns 0 and
2, rows 0 and 1, and level 1 classifies the single cell as case 6, and the
case table interpolates the right cell edge, whose two corner values are both
2 and do not bracket the level; the degenerate tie-break returns the corner
(2, 0).  The emitted segment therefore has an endpoint with x-coordinate 2,
not on the line x = 1, refuting the claim. -/
theorem claim2_failing_eval :
    marching_squares [(0 : ℚ), 2] [0, 1] [[0, 2], [0, 2]] [1] =
        [[(2, 0), (1, 1)]] ∧
      ((2 : ℚ), (0 : ℚ)).1 ≠ 1 := by
  constructor
  · norm_num [marching_squares, marching_cell, corner_code, interpolate, pairUp, EPSILON,
      List.flatMap, List.flatten]
    decide
  · norm_num

/-- Failing input for C3: in the grid with corner values v1 = 0, v2 = 2,
v3 = 0, v4 = 0 and level 1 the single cell is classified as case 2, which is
neither 0 nor 15, yet the case table collects a single edge point, so no
segment at all is emitted for the cell. -/
theorem claim3_failing_eval :
    corner_code (1 : ℚ) 0 2 0 0 = 2 ∧ (2 : ℕ) ≠ 0 ∧ (2 : ℕ) ≠ 15 ∧
      marching_squares [(0 : ℚ), 1] [0, 1] [[0, 2], [0, 0]] [1] = [] := by
  refine ⟨by norm_num [corner_code], by norm_num, by norm_num, ?_⟩
  norm_num [marching_squares, marching_cell, corner_code, interpolate, pairUp, EPSILON,
    List.flatMap, List.flatten]

/-- Formalisation of the spec sentence for evaluateB: a contribution of
magnitude mu I |dl| / r^2 directed along the normalized 90 degree rotation of
the displacement vector taken from the sample point to the sub-segment
midpoint (the clockwise rotation (d.2, -d.1)). -/
noncomputable def spec_b_contribution (point : Vec) (wire : CurrentWire) (i : ℕ) : Vec :=
  let segments : ℕ := max 4 SEGMENTS_PER_LINE
  let disp : Vec := ((bSubMid wire i).1 - point.1, (bSubMid wire i).2 - point.2)
  let rot : Vec := (disp.2, -disp.1)
  let r_sq := disp.1 ^ 2 + disp.2 ^ 2
  let dl := hypot ((wire.x2 - wire.x1) / (segments : ℝ)) ((wire.y2 - wire.y1) / (segments : ℝ))
  let n := hypot rot.1 rot.2
  (MU_OVER_4PI * wire.current * dl / r_sq * (rot.1 / n),
    MU_OVER_4PI * wire.current * dl / r_sq * (rot.2 / n))

/-- Away from the epsilon guard, normalize is plain division by the norm. -/
theorem normalize_of_big (dx dy : ℝ) (h : ¬ dx * dx + dy * dy < EPSILON) :
    normalize (-dy, dx) =
      (-dy / Real.sqrt (dx * dx + dy * dy), dx / Real.sqrt (dx * dx + dy * dy)) := by
  have harg : (-dy) ^ 2 + dx ^ 2 = dx * dx + dy * dy := by ring
  have hge : (EPSILON : ℝ) ≤ dx * dx + dy * dy := not_lt.1 h
  have hsqrt : Real.sqrt (1e-6) = 1e-3 := by
    rw [show (1e-6 : ℝ) = (1e-3) ^ 2 by norm_num, Real.sqrt_sq (by norm_num : (0 : ℝ) ≤ 1e-3)]
  have hmag : ¬ Real.sqrt (dx * dx + dy * dy) < EPSILON := by
    rw [not_lt]
    calc (EPSILON : ℝ) ≤ 1e-3 := by norm_num [EPSILON]
      _ = Real.sqrt (1e-6) := hsqrt.symm
      _ ≤ Real.sqrt (dx * dx + dy * dy) := by
          apply Real.sqrt_le_sqrt
          calc (1e-6 : ℝ) = EPSILON := by norm_num [EPSILON]
            _ ≤ dx * dx + dy * dy := hge
  simp only [normalize, hypot, harg]
  rw [if_neg hmag]

/-- The claim of C4: away from the epsilon guard, the term the inner loop of
compute_B_at_point adds for sub-segment i is exactly the planar Biot-Savart
contribution described by the spec, and compute_B_at_point accumulates these
per-wire terms by superposition. -/
theorem claim4_biot_savart (p : Vec) (w : CurrentWire) (i : ℕ) (ws : List CurrentWire)
    (h : ¬ bSubRsq p w i < EPSILON) :
    bSubTerm p w i = spec_b_contribution p w i ∧
    compute_B_at_point p (w :: ws) = bWireTerm p w + compute_B_at_point p ws := by
  constructor
  · have hr : bSubRsq p w i =
        (p.1 - (bSubMid w i).1) * (p.1 - (bSubMid w i).1) +
          (p.2 - (bSubMid w i).2) * (p.2 - (bSubMid w i).2) := rfl
    have h2 : ¬ (p.1 - (bSubMid w i).1) * (p.1 - (bSubMid w i).1) +
        (p.2 - (bSubMid w i).2) * (p.2 - (bSubMid w i).2) < EPSILON := by
      rw [← hr]; exact h
    simp only [bSubTerm, spec_b_contribution]
    rw [if_neg h]
    rw [normalize_of_big _ _ h2]
    have hrsq : ((bSubMid w i).1 - p.1) ^ 2 + ((bSubMid w i).2 - p.2) ^ 2 = bSubRsq p w i := by
      rw [hr]; ring
    have hden : Real.sqrt (((bSubMid w i).2 - p.2) ^ 2 + (-((bSubMid w i).1 - p.1)) ^ 2) =
        Real.sqrt ((p.1 - (bSubMid w i).1) * (p.1 - (bSubMid w i).1) +
          (p.2 - (bSubMid w i).2) * (p.2 - (bSubMid w i).2)) := by
      congr 1
      ring
    simp only [hypot, hrsq, hden, hr, Prod.mk.injEq]
    constructor
    · ring
    · ring
  · simp only [compute_B_at_point, List.map_cons, List.sum_cons]

/-- Witness for claim4_biot_savart: the wire from (0,0) to (20,0) carrying
current 1, sampled at (0,10), sub-segment 0 with midpoint (0.5, 0). -/
theorem claim4_biot_savart_witness :
    ¬ bSubRsq (0, 10) ⟨0, 0, 20, 0, 1⟩ 0 < EPSILON ∧
      (bSubTerm (0, 10) ⟨0, 0, 20, 0, 1⟩ 0 = spec_b_contribution (0, 10) ⟨0, 0, 20, 0, 1⟩ 0 ∧
        compute_B_at_point (0, 10) [⟨0, 0, 20, 0, 1⟩] =
          bWireTerm (0, 10) ⟨0, 0, 20, 0, 1⟩ + compute_B_at_point (0, 10) []) := by
  have h : ¬ bSubRsq (0, 10) ⟨0, 0, 20, 0, 1⟩ 0 < EPSILON := by
    simp only [bSubRsq, bSubMid, SEGMENTS_PER_LINE, EPSILON]
    norm_num
  exact ⟨h, claim4_biot_savart (0, 10) ⟨0, 0, 20, 0, 1⟩ 0 [] h⟩

/-- World-space viewport rectangle, the embedding of the bounds 4-tuple
(x_min, y_min, x_max, y_max) passed around scene2d.py. -/
structure Bounds where
  x_min : ℝ
  y_min : ℝ
  x_max : ℝ
  y_max : ℝ

/-- Minimum of a Python list; the source only applies min to nonempty lists,
guarded by the preceding emptiness check. -/
noncomputable def pyMin : List ℝ → ℝ
  | [] => 0
  | a :: l => l.foldl min a

/-- Maximum of a Python list under the same convention. -/
noncomputable def pyMax : List ℝ → ℝ
  | [] => 0
  | a :: l => l.foldl max a

/-- Embedding of math.isclose with rel_tol = abs_tol = 1e-6, as called in
_generate_potential_contours. -/
def isclose (a b : ℝ) : Prop := |a - b| ≤ max (1e-6 * max |a| |b|) 1e-6

/-- Grid x-coordinates of _generate_potential_contours (cols = 40). -/
noncomputable def potential_grid_xs (bounds : Bounds) : List ℝ :=
  (List.range 40).map fun i => bounds.x_min + (bounds.x_max - bounds.x_min) * (i : ℝ) / (40 - 1)

/-- Grid y-coordinates of _generate_potential_contours (rows = 30). -/
noncomputable def potential_grid_ys (bounds : Bounds) : List ℝ :=
  (List.range 30).map fun j => bounds.y_min + (bounds.y_max - bounds.y_min) * (j : ℝ) / (30 - 1)

/-- Row-major grid of sampled potentials of _generate_potential_contours. -/
noncomputable def potential_grid_values (bounds : Bounds) (charges : List PointCharge)
    (line_charges : List LineCharge) : List (List ℝ) :=
  (potential_grid_ys bounds).map fun y =>
    (potential_grid_xs bounds).map fun x =>
      compute_potential_at_point (x, y) charges line_charges

open Classical in
/-- Embedding of scene2d.py _generate_potential_contours.  The source fixes
num_levels = 7; the level count is kept as a parameter so the flat-field
property can be stated for any requested level count, as the spec phrases
it. -/
noncomputable def generate_potential_contours (num_levels : ℕ) (bounds : Bounds)
    (charges : List PointCharge) (line_charges : List LineCharge) : List (List Vec) :=
  let xs := potential_grid_xs bounds
  let ys := potential_grid_ys bounds
  let values := potential_grid_values bounds charges line_charges
  let flat_values := values.flatten
  if flat_values.isEmpty then []
  else
    let min_v := pyMin flat_values
    let max_v := pyMax flat_values
    if isclose min_v max_v then []
    else
      let levels := (List.range num_levels).map fun i =>
        min_v + ((i : ℝ) + 1) * (max_v - min_v) / ((num_levels : ℝ) + 1)
      marching_squares xs ys values levels

/-- Embedding of _vector_field_spacing_world: 90 screen pixels converted to
world units with a floor of 12, scaled by the density divisor. -/
noncomputable def vector_field_spacing_world (zoom : ℝ) (vector_field_skip : ℕ) : ℝ :=
  max 12 (90 / max zoom 0.05) * ((max 1 vector_field_skip : ℕ) : ℝ)

/-- Iterates of the loop while x <= stop: ... x += spacing started at start,
for positive spacing: the points start + k spacing that do not exceed stop. -/
noncomputable def grid_coords (start stop spacing : ℝ) : List ℝ :=
  if start ≤ stop then
    (List.range (⌊(stop - start) / spacing⌋.toNat + 1)).map fun k => start + (k : ℝ) * spacing
  else []

/-- Field selector string of _sample_field_vectors. -/
inductive FieldKind
  | E
  | B

/-- Dispatch on the field kind as in the inner loop of
_sample_field_vectors. -/
noncomputable def field_at (kind : FieldKind) (charges : List PointCharge)
    (line_charges : List LineCharge) (currents : List CurrentWire) (p : Vec) : Vec :=
  match kind with
  | .E => compute_E_at_point p charges line_charges
  | .B => compute_B_at_point p currents

/-- Grid points visited by _sample_field_vectors: x outer, y inner, both
starting on the spacing-aligned floor of the viewport minimum. -/
noncomputable def sample_grid_points (bounds : Bounds) (spacing : ℝ) : List Vec :=
  let start_x := (⌊bounds.x_min / spacing⌋ : ℝ) * spacing
  let start_y := (⌊bounds.y_min / spacing⌋ : ℝ) * spacing
  (grid_coords start_x bounds.x_max spacing).flatMap fun x =>
    (grid_coords start_y bounds.y_max spacing).map fun y => (x, y)

/-- Loop body of _sample_field_vectors: record the sample and update the
running maximum only when the magnitude exceeds the 1e-5 floor. -/
noncomputable def sample_step (fieldAt : Vec → Vec) (acc : List (Vec × Vec × ℝ) × ℝ)
    (p : Vec) : List (Vec × Vec × ℝ) × ℝ :=
  let vec := fieldAt p
  let magnitude := compute_field_magnitude vec
  if magnitude > 1e-5 then
    (acc.1 ++ [(p, vec, magnitude)], if magnitude > acc.2 then magnitude else acc.2)
  else acc

/-- Embedding of _sample_field_vectors. -/
noncomputable def sample_field_vectors (bounds : Bounds) (kind : FieldKind)
    (charges : List PointCharge) (line_charges : List LineCharge)
    (currents : List CurrentWire) (spacing : ℝ) : List (Vec × Vec × ℝ) × ℝ :=
  if spacing ≤ 0 then ([], 0)
  else
    (sample_grid_points bounds spacing).foldl
      (sample_step (field_at kind charges line_charges currents)) ([], 0)

/-- The seed of a max fold bounds the fold from below. -/
theorem init_le_foldl_max (b : ℝ) (l : List ℝ) : b ≤ l.foldl max b := by
  induction l generalizing b with
  | nil => simp
  | cons c l ih => exact le_trans (le_max_left b c) (ih (max b c))

/-- Every member of a list bounds its max fold from below. -/
theorem mem_le_foldl_max (a b : ℝ) (l : List ℝ) (h : a ∈ l) : a ≤ l.foldl max b := by
  induction l generalizing b with
  | nil => exact absurd h (List.not_mem_nil a)
  | cons c l ih =>
      rcases List.mem_cons.1 h with h1 | h1
      · rw [h1]
        exact le_trans (le_max_right b c) (init_le_foldl_max (max b c) l)
      · exact ih (max b c) h1

/-- Invariant of the sampling fold: every recorded sample clears the 1e-5
floor and stores its own magnitude, and the running maximum is the max fold
of the recorded magnitudes. -/
theorem sample_fold_invariant (fieldAt : Vec → Vec) (pts : List Vec)
    (acc : List (Vec × Vec × ℝ) × ℝ)
    (hI : List.Forall (fun s => 1e-5 < s.2.2 ∧ s.2.2 = compute_field_magnitude s.2.1) acc.1 ∧
      acc.2 = (acc.1.map fun s => s.2.2).foldl max 0) :
    List.Forall (fun s => 1e-5 < s.2.2 ∧ s.2.2 = compute_field_magnitude s.2.1)
        (pts.foldl (sample_step fieldAt) acc).1 ∧
      (pts.foldl (sample_step fieldAt) acc).2 =
        ((pts.foldl (sample_step fieldAt) acc).1.map fun s => s.2.2).foldl max 0 := by
  induction pts generalizing acc with
  | nil => exact hI
  | cons p pts ih =>
      simp only [List.foldl_cons]
      apply ih
      obtain ⟨hforall, hmax⟩ := hI
      by_cases hrec : compute_field_magnitude (fieldAt p) > 1e-5
      · constructor
        · simp only [sample_step, if_pos hrec]
          rw [List.forall_iff_forall_mem] at hforall ⊢
          intro s hs
          rcases List.mem_append.1 hs with h1 | h1
          · exact hforall s h1
          · rcases List.mem_singleton.1 h1 with rfl
            exact ⟨hrec, rfl⟩
        · simp only [sample_step, if_pos hrec, List.map_append, List.map_cons, List.map_nil,
            List.foldl_append, List.foldl_cons, List.foldl_nil]
          rw [← hmax]
          by_cases hgt : compute_field_magnitude (fieldAt p) > acc.2
          · rw [if_pos hgt, max_eq_right (le_of_lt hgt)]
          · rw [if_neg hgt, max_eq_left (not_lt.1 hgt)]
      · simp only [sample_step, if_neg hrec]
        exact ⟨hforall, hmax⟩

/-- Amended claim of C9: every sample recorded by the sampler has magnitude
strictly above 1e-5, its stored magnitude is the Euclidean norm of its
vector, and the returned maximum is the maximum over the recorded samples
(hence bounds every recorded magnitude); when no sample is recorded the
returned maximum is 0 even if some grid evaluation had a small positive
magnitude. -/
theorem claim9_sampler (bounds : Bounds) (kind : FieldKind) (charges : List PointCharge)
    (line_charges : List LineCharge) (currents : List CurrentWire) (spacing : ℝ) :
    List.Forall (fun s => 1e-5 < s.2.2 ∧ s.2.2 = compute_field_magnitude s.2.1 ∧
        s.2.2 ≤ (sample_field_vectors bounds kind charges line_charges currents spacing).2)
      (sample_field_vectors bounds kind charges line_charges currents spacing).1 ∧
    (sample_field_vectors bounds kind charges line_charges currents spacing).2 =
      ((sample_field_vectors bounds kind charges line_charges currents spacing).1.map
        fun s => s.2.2).foldl max 0 := by
  have key : List.Forall (fun s => 1e-5 < s.2.2 ∧ s.2.2 = compute_field_magnitude s.2.1)
      (sample_field_vectors bounds kind charges line_charges currents spacing).1 ∧
    (sample_field_vectors bounds kind charges line_charges currents spacing).2 =
      ((sample_field_vectors bounds kind charges line_charges currents spacing).1.map
        fun s => s.2.2).foldl max 0 := by
    rw [sample_field_vectors]
    by_cases hsp : spacing ≤ 0
    · rw [if_pos hsp]
      exact ⟨trivial, rfl⟩
    · rw [if_neg hsp]
      exact sample_fold_invariant _ _ ([], 0) ⟨trivial, rfl⟩
  obtain ⟨hforall, hmax⟩ := key
  refine ⟨?_, hmax⟩
  rw [List.forall_iff_forall_mem] at hforall ⊢
  intro s hs
  obtain ⟨h1, h2⟩ := hforall s hs
  refine ⟨h1, h2, ?_⟩
  rw [hmax]
  exact mem_le_foldl_max _ _ _ (List.mem_map_of_mem (fun s => s.2.2) hs)

/-- Evaluation helper: the degenerate viewport with spacing 90 visits
exactly the origin. -/
theorem sample_grid_points_origin : sample_grid_points ⟨0, 0, 0, 0⟩ 90 = [((0 : ℝ), (0 : ℝ))] := by
  have hfloor : ⌊(0 : ℝ) / 90⌋ = 0 := by norm_num
  have hg : grid_coords 0 0 90 = [(0 : ℝ)] := by
    rw [grid_coords, if_pos le_rfl]
    norm_num [List.range_succ]
  simp only [sample_grid_points, hfloor, Int.cast_zero, zero_mul, hg, List.flatMap_cons,
    List.flatMap_nil, List.map_cons, List.map_nil, List.append_nil]

/-- Evaluation helper: the field of the charge 1.25e-4 at (3, 4), sampled at
the origin, where the distance is 5. -/
theorem field_at_origin_eval :
    field_at .E [⟨3, 4, 1.25e-4⟩] [] [] ((0 : ℝ), (0 : ℝ)) = (-3e-6, -4e-6) := by
  have hrsq : ((0 : ℝ) - 3) * ((0 : ℝ) - 3) + ((0 : ℝ) - 4) * ((0 : ℝ) - 4) = 25 := by norm_num
  have hsqrt : Real.sqrt (25 : ℝ) = 5 := by
    rw [show (25 : ℝ) = 5 ^ 2 by norm_num, Real.sqrt_sq (by norm_num : (0 : ℝ) ≤ 5)]
  simp only [field_at, compute_E_at_point, List.map_cons, List.map_nil, List.sum_cons,
    List.sum_nil, add_zero, eChargeTerm, hrsq]
  rw [if_neg (by norm_num [EPSILON])]
  rw [hsqrt]
  simp only [Prod.mk_add_mk, add_zero, Prod.mk.injEq, K_E]
  constructor
  · norm_num
  · norm_num

/-- Evaluation helper: the magnitude of that field value is exactly 5e-6. -/
theorem field_at_origin_magnitude :
    compute_field_magnitude ((-3e-6 : ℝ), (-4e-6 : ℝ)) = 5e-6 := by
  simp only [compute_field_magnitude, hypot]
  rw [show ((-3e-6 : ℝ)) ^ 2 + ((-4e-6 : ℝ)) ^ 2 = (5e-6 : ℝ) ^ 2 by norm_num,
    Real.sqrt_sq (by norm_num : (0 : ℝ) ≤ 5e-6)]

/-- Counterexample to C9 as stated: with one charge of 1.25e-4 at (3, 4) and
the degenerate viewport at the origin, the single grid evaluation has
magnitude 5e-6, below the 1e-5 floor, so nothing is recorded and the
returned maximum is 0, while the maximum magnitude seen over the grid
evaluations is 5e-6. -/
theorem claim9_counterexample :
    (sample_field_vectors ⟨0, 0, 0, 0⟩ .E [⟨3, 4, 1.25e-4⟩] [] [] 90).2 = 0 ∧
      ((sample_grid_points ⟨0, 0, 0, 0⟩ 90).map fun p =>
        compute_field_magnitude (field_at .E [⟨3, 4, 1.25e-4⟩] [] [] p)).foldl max 0 = 5e-6 ∧
      (0 : ℝ) ≠ 5e-6 := by
  refine ⟨?_, ?_, by norm_num⟩
  · rw [sample_field_vectors, if_neg (by norm_num : ¬ (90 : ℝ) ≤ 0),
      sample_grid_points_origin]
    simp only [List.foldl_cons, List.foldl_nil, sample_step, field_at_origin_eval,
      field_at_origin_magnitude]
    rw [if_neg (by norm_num : ¬ (5e-6 : ℝ) > 1e-5)]
  · rw [sample_grid_points_origin]
    simp only [List.map_cons, List.map_nil, List.foldl_cons, List.foldl_nil,
      field_at_origin_eval, field_at_origin_magnitude]
    rw [max_eq_right (by norm_num : (0 : ℝ) ≤ 5e-6)]

/-- Folding min from a seed stays inside the seeded list. -/
theorem foldl_min_mem (a : ℝ) (l : List ℝ) : l.foldl min a ∈ a :: l := by
  induction l generalizing a with
  | nil => simp
  | cons b l ih =>
      simp only [List.foldl_cons]
      have h := ih (min a b)
      rcases List.mem_cons.1 h with h1 | h1
      · rcases min_choice a b with hm | hm
        · rw [h1, hm]; simp
        · rw [h1, hm]; simp
      · simp only [List.mem_cons]
        right; right; exact h1

/-- Folding max from a seed stays inside the seeded list. -/
theorem foldl_max_mem (a : ℝ) (l : List ℝ) : l.foldl max a ∈ a :: l := by
  induction l generalizing a with
  | nil => simp
  | cons b l ih =>
      simp only [List.foldl_cons]
      have h := ih (max a b)
      rcases List.mem_cons.1 h with h1 | h1
      · rcases max_choice a b with hm | hm
        · rw [h1, hm]; simp
        · rw [h1, hm]; simp
      · simp only [List.mem_cons]
        right; right; exact h1

/-- The minimum of a nonempty list is a member. -/
theorem pyMin_mem (l : List ℝ) (h : l ≠ []) : pyMin l ∈ l := by
  cases l with
  | nil => exact absurd rfl h
  | cons a l => exact foldl_min_mem a l

/-- The maximum of a nonempty list is a member. -/
theorem pyMax_mem (l : List ℝ) (h : l ≠ []) : pyMax l ∈ l := by
  cases l with
  | nil => exact absurd rfl h
  | cons a l => exact foldl_max_mem a l

/-- The claim of C7: when all sampled potential values agree within the
1e-6 tolerance, the contour generation returns no segments, for any requested
level count, because the min/max closeness check fires before any level is
generated. -/
theorem claim7_flat_grid (num_levels : ℕ) (bounds : Bounds)
    (charges : List PointCharge) (line_charges : List LineCharge)
    (h : ∀ v ∈ (potential_grid_values bounds charges line_charges).flatten,
      ∀ w ∈ (potential_grid_values bounds charges line_charges).flatten, |v - w| ≤ 1e-6) :
    generate_potential_contours num_levels bounds charges line_charges = [] := by
  rw [generate_potential_contours]
  by_cases hemp : (potential_grid_values bounds charges line_charges).flatten.isEmpty
  · rw [if_pos hemp]
  · rw [if_neg hemp]
    have hne : (potential_grid_values bounds charges line_charges).flatten ≠ [] := by
      intro hx
      rw [hx] at hemp
      exact hemp rfl
    have hclose : isclose (pyMin (potential_grid_values bounds charges line_charges).flatten)
        (pyMax (potential_grid_values bounds charges line_charges).flatten) := by
      have h1 := pyMin_mem _ hne
      have h2 := pyMax_mem _ hne
      exact le_trans (h _ h1 _ h2) (le_max_right _ _)
    rw [if_pos hclose]

/-- Witness for claim7_flat_grid: with no sources every sampled potential is
zero, so the grid is flat and the contour generation returns no segments. -/
theorem claim7_flat_grid_witness :
    generate_potential_contours 7 ⟨0, 0, 1, 1⟩ [] [] = [] := by
  apply claim7_flat_grid
  intro v hv w hw
  have hz : ∀ u ∈ (potential_grid_values ⟨0, 0, 1, 1⟩ [] []).flatten, u = 0 := by
    intro u hu
    simp only [potential_grid_values, List.mem_flatten, List.mem_map] at hu
    obtain ⟨row, ⟨⟨y, hy, hrow⟩, hurow⟩⟩ := hu
    rw [← hrow] at hurow
    simp only [List.mem_map] at hurow
    obtain ⟨x, hx, hux⟩ := hurow
    rw [← hux]
    simp [compute_potential_at_point]
  rw [hz v hv, hz w hw]
  norm_num

/-- Fixed charge radius in world units, from scene2d.py. -/
def charge_radius_world : ℝ := 20.0

/-- Fixed line selection threshold in world units, from scene2d.py. -/
def line_selection_threshold_world : ℝ := 14.0

/-- Embedding of _field_line_step_world: zoom-dependent step with floor 4. -/
noncomputable def field_line_step_world (zoom : ℝ) : ℝ := max 4 (30 / max zoom 0.2)

open Classical in
/-- Embedding of the static method _distance_to_segment of scene2d.py. -/
noncomputable def distance_to_segment (point s e : Vec) : ℝ :=
  if s = e then hypot (point.1 - s.1) (point.2 - s.2)
  else
    let line_mag_sq := (e.1 - s.1) ^ 2 + (e.2 - s.2) ^ 2
    if line_mag_sq = 0 then hypot (point.1 - s.1) (point.2 - s.2)
    else
      let t := ((point.1 - s.1) * (e.1 - s.1) + (point.2 - s.2) * (e.2 - s.2)) / line_mag_sq
      let t2 := max 0 (min 1 t)
      hypot (point.1 - (s.1 + t2 * (e.1 - s.1))) (point.2 - (s.2 + t2 * (e.2 - s.2)))

/-- Embedding of _near_e_source: within 0.9 charge radius of a point charge
or 0.6 selection threshold of a line charge. -/
def near_e_source (charges : List PointCharge) (line_charges : List LineCharge)
    (p : Vec) : Prop :=
  (∃ c ∈ charges, hypot (p.1 - c.x) (p.2 - c.y) < charge_radius_world * 0.9) ∨
    (∃ l ∈ line_charges,
      distance_to_segment p (l.x1, l.y1) (l.x2, l.y2) < line_selection_threshold_world * 0.6)

/-- Embedding of _near_b_source. -/
def near_b_source (currents : List CurrentWire) (p : Vec) : Prop :=
  ∃ w ∈ currents,
    distance_to_segment p (w.x1, w.y1) (w.x2, w.y2) < line_selection_threshold_world * 0.6

/-- Dispatch of the avoid argument of _trace_field_line on its two possible
string values. -/
def avoid_near (avoid : FieldKind) (charges : List PointCharge)
    (line_charges : List LineCharge) (currents : List CurrentWire) (p : Vec) : Prop :=
  match avoid with
  | .E => near_e_source charges line_charges p
  | .B => near_b_source currents p

/-- Membership in the viewport rectangle, the inline bounds check of
scene2d.py. -/
def InBounds (bounds : Bounds) (q : Vec) : Prop :=
  bounds.x_min ≤ q.1 ∧ q.1 ≤ bounds.x_max ∧ bounds.y_min ≤ q.2 ∧ q.2 ≤ bounds.y_max

/-- One integration step of _trace_field_line: normalize the field vector,
negate it for the reverse direction, and advance by the fixed step. -/
noncomputable def trace_next (f : Vec → Vec) (direction : ℤ) (step : ℝ) (current : Vec) : Vec :=
  let field_vec := f current
  let magnitude := compute_field_magnitude field_vec
  let norm0 := (field_vec.1 / magnitude, field_vec.2 / magnitude)
  let norm1 := if direction < 0 then (-norm0.1, -norm0.2) else norm0
  (current.1 + norm1.1 * step, current.2 + norm1.2 * step)

open Classical in
/-- Fuel-indexed body of the for loop of _trace_field_line; the source runs
it with fuel max_steps = 600. -/
noncomputable def trace_aux (f : Vec → Vec) (bounds : Bounds) (avoid : FieldKind)
    (charges : List PointCharge) (line_charges : List LineCharge)
    (currents : List CurrentWire) (direction : ℤ) (step : ℝ) :
    ℕ → Vec → List Vec → List Vec
  | 0, _, points => points
  | n + 1, current, points =>
    if compute_field_magnitude (f current) < 1e-4 then points
    else
      let next := trace_next f direction step current
      if ¬ InBounds bounds next then points
      else if avoid_near avoid charges line_charges currents next then points
      else trace_aux f bounds avoid charges line_charges currents direction step n next
        (points ++ [next])

/-- Embedding of _trace_field_line: the polyline starts at the seed and the
loop runs for at most 600 steps. -/
noncomputable def trace_field_line (start : Vec) (f : Vec → Vec) (bounds : Bounds)
    (avoid : FieldKind) (charges : List PointCharge) (line_charges : List LineCharge)
    (currents : List CurrentWire) (direction : ℤ) (zoom : ℝ) : List Vec :=
  trace_aux f bounds avoid charges line_charges currents direction
    (field_line_step_world zoom) 600 start [start]

open Classical in
/-- Embedding of _generate_e_field_lines: 12 ring seeds per charge, both
directions, keeping only traces longer than one point. -/
noncomputable def generate_e_field_lines (charges : List PointCharge)
    (line_charges : List LineCharge) (currents : List CurrentWire) (zoom : ℝ)
    (bounds : Bounds) : List (List Vec) :=
  let seed_radius := charge_radius_world * 1.4
  charges.flatMap fun charge =>
    (List.range 12).flatMap fun i =>
      let angle := 2 * Real.pi * (i : ℝ) / 12
      let start := (charge.x + Real.cos angle * seed_radius,
        charge.y + Real.sin angle * seed_radius)
      if InBounds bounds start then
        ([1, -1] : List ℤ).flatMap fun direction =>
          let line := trace_field_line start
            (fun p => compute_E_at_point p charges line_charges) bounds FieldKind.E
            charges line_charges currents direction zoom
          if 1 < line.length then [line] else []
      else []

/-- Structure of the tracing loop: whatever happens, the result extends the
accumulated points by at most fuel new points, all inside the viewport. -/
theorem trace_aux_suffix (f : Vec → Vec) (bounds : Bounds) (avoid : FieldKind)
    (charges : List PointCharge) (line_charges : List LineCharge)
    (currents : List CurrentWire) (direction : ℤ) (step : ℝ) :
    ∀ (n : ℕ) (current : Vec) (points : List Vec),
      ∃ suffix,
        trace_aux f bounds avoid charges line_charges currents direction step n current
            points = points ++ suffix ∧
          suffix.length ≤ n ∧ List.Forall (InBounds bounds) suffix := by
  intro n
  induction n with
  | zero =>
      intro current points
      exact ⟨[], (List.append_nil points).symm ▸ rfl, Nat.zero_le _, trivial⟩
  | succ n ih =>
      intro current points
      simp only [trace_aux]
      by_cases h1 : compute_field_magnitude (f current) < 1e-4
      · rw [if_pos h1]
        exact ⟨[], (List.append_nil points).symm, Nat.zero_le _, trivial⟩
      · rw [if_neg h1]
        by_cases h2 : InBounds bounds (trace_next f direction step current)
        · rw [if_neg (not_not_intro h2)]
          by_cases h3 : avoid_near avoid charges line_charges currents
              (trace_next f direction step current)
          · rw [if_pos h3]
            exact ⟨[], (List.append_nil points).symm, Nat.zero_le _, trivial⟩
          · rw [if_neg h3]
            obtain ⟨suffix, heq, hlen, hfor⟩ :=
              ih (trace_next f direction step current)
                (points ++ [trace_next f direction step current])
            refine ⟨trace_next f direction step current :: suffix, ?_, ?_, ?_⟩
            · rw [heq, List.append_assoc]
              rfl
            · simpa using Nat.succ_le_succ hlen
            · rw [List.forall_cons]
              exact ⟨h2, hfor⟩
        · rw [if_pos h2]
          exact ⟨[], (List.append_nil points).symm, Nat.zero_le _, trivial⟩

/-- The claim of C10: the streamline trace always returns a nonempty
polyline headed by the seed, of length at most 601, whose every point after
the seed lies inside the viewport bounds. -/
theorem claim10_trace_bounds (start : Vec) (f : Vec → Vec) (bounds : Bounds)
    (avoid : FieldKind) (charges : List PointCharge) (line_charges : List LineCharge)
    (currents : List CurrentWire) (direction : ℤ) (zoom : ℝ) :
    trace_field_line start f bounds avoid charges line_charges currents direction zoom ≠ [] ∧
    (trace_field_line start f bounds avoid charges line_charges currents direction
      zoom).head? = some start ∧
    (trace_field_line start f bounds avoid charges line_charges currents direction
      zoom).length ≤ 601 ∧
    List.Forall (InBounds bounds)
      (trace_field_line start f bounds avoid charges line_charges currents direction
        zoom).tail := by
  obtain ⟨suffix, heq, hlen, hfor⟩ :=
    trace_aux_suffix f bounds avoid charges line_charges currents direction
      (field_line_step_world zoom) 600 start [start]
  have heq2 : trace_field_line start f bounds avoid charges line_charges currents
      direction zoom = start :: suffix := by
    rw [trace_field_line, heq]
    rfl
  rw [heq2]
  refine ⟨List.cons_ne_nil _ _, rfl, ?_, ?_⟩
  · simpa using Nat.succ_le_succ hlen
  · simpa using hfor

/-- The claim of C8: a trace whose seed sees field magnitude below 1e-4
returns the single-point polyline of the seed, and the e-field line
generator never keeps a line of fewer than two points. -/
theorem claim8_null_trace_and_discard (start : Vec) (f : Vec → Vec) (bounds : Bounds)
    (avoid : FieldKind) (charges : List PointCharge) (line_charges : List LineCharge)
    (currents : List CurrentWire) (direction : ℤ) (zoom : ℝ)
    (cs : List PointCharge) (ls : List LineCharge) (ws : List CurrentWire)
    (zoom2 : ℝ) (bounds2 : Bounds)
    (h : compute_field_magnitude (f start) < 1e-4) :
    trace_field_line start f bounds avoid charges line_charges currents direction zoom =
      [start] ∧
    List.Forall (fun l => 1 < l.length) (generate_e_field_lines cs ls ws zoom2 bounds2) := by
  constructor
  · rw [trace_field_line, show (600 : ℕ) = 599 + 1 from rfl, trace_aux, if_pos h]
  · rw [List.forall_iff_forall_mem]
    intro l hl
    simp only [generate_e_field_lines, List.mem_flatMap, List.mem_range] at hl
    obtain ⟨charge, hc, i, hi, hl⟩ := hl
    split at hl
    · simp only [List.mem_flatMap] at hl
      obtain ⟨d, hd, hl⟩ := hl
      split at hl
      · next hlen =>
          rcases List.mem_singleton.1 hl with rfl
          exact hlen
      · exact absurd hl (List.not_mem_nil _)
    · exact absurd hl (List.not_mem_nil _)

/-- Witness for claim8_null_trace_and_discard: the zero field has magnitude
0 at the origin seed, so the trace collapses to the seed, and the generator
over an empty scene keeps no short line. -/
theorem claim8_null_trace_and_discard_witness :
    trace_field_line (0, 0) (fun _ => ((0 : ℝ), (0 : ℝ))) ⟨0, 0, 100, 100⟩ FieldKind.E
        [] [] [] 1 1 = [(0, 0)] ∧
      List.Forall (fun l => 1 < l.length)
        (generate_e_field_lines [] [] [] 1 ⟨0, 0, 100, 100⟩) := by
  apply claim8_null_trace_and_discard
  simp only [compute_field_magnitude, hypot]
  norm_num

end Electrostat
